import Mathlib

/-!
Verification of vectorbt's strategy module (src/vectorbt/strategy.py).

The module computes parameterized technical indicators (moving-average pair,
Bollinger bands, RSI) over a price matrix and derives exit signal matrices
from stop-loss and trailing-stop rules.

Modelling choices:
* IEEE 64-bit floats are modelled by the type `F`: an exact rational, or one
  of the special values NaN, +inf, -inf.  Arithmetic on `F` follows the IEEE
  special-value rules (NaN propagation, signed infinities, division by zero)
  but is exact on rationals; rounding is irrelevant to the claims below.
* A 2d numpy array is a function `Nat → Nat → F` (row, column); a boolean
  matrix is `Nat → Nat → Bool`.  Shapes are passed explicitly where a
  computation depends on them.
* The numba typed dictionary used as a per-call cache is an association list
  with insert-overwrites-by-shadowing semantics.
* Functions imported from vectorbt.timeseries and vectorbt.signals are not
  part of the excerpted source; they are modelled from the specification and
  marked as such in their doc comments.
-/

namespace Vectorbt

/-- Model of an IEEE double: NaN, the two infinities, or an exact rational. -/
inductive F : Type where
  | nan : F
  | inf : F
  | ninf : F
  | fin : ℚ → F
deriving DecidableEq

/-- IEEE negation. -/
def fneg : F → F
  | .nan => .nan
  | .inf => .ninf
  | .ninf => .inf
  | .fin q => .fin (-q)

/-- IEEE addition: NaN propagates, inf + (-inf) is NaN. -/
def fadd : F → F → F
  | .nan, _ => .nan
  | _, .nan => .nan
  | .inf, .ninf => .nan
  | .ninf, .inf => .nan
  | .inf, _ => .inf
  | _, .inf => .inf
  | .ninf, _ => .ninf
  | _, .ninf => .ninf
  | .fin a, .fin b => .fin (a + b)

/-- IEEE subtraction. -/
def fsub (a b : F) : F := fadd a (fneg b)

/-- IEEE multiplication: NaN propagates, 0 * inf is NaN. -/
def fmul : F → F → F
  | .nan, _ => .nan
  | _, .nan => .nan
  | .inf, .inf => .inf
  | .inf, .ninf => .ninf
  | .ninf, .inf => .ninf
  | .ninf, .ninf => .inf
  | .inf, .fin q => if 0 < q then .inf else if q < 0 then .ninf else .nan
  | .fin q, .inf => if 0 < q then .inf else if q < 0 then .ninf else .nan
  | .ninf, .fin q => if 0 < q then .ninf else if q < 0 then .inf else .nan
  | .fin q, .ninf => if 0 < q then .ninf else if q < 0 then .inf else .nan
  | .fin a, .fin b => .fin (a * b)

/-- IEEE division: NaN propagates, inf/inf is NaN, finite/0 gives a signed
infinity (0/0 is NaN), finite/inf is 0. -/
def fdiv : F → F → F
  | .nan, _ => .nan
  | _, .nan => .nan
  | .inf, .inf => .nan
  | .inf, .ninf => .nan
  | .ninf, .inf => .nan
  | .ninf, .ninf => .nan
  | .inf, .fin q => if q < 0 then .ninf else .inf
  | .ninf, .fin q => if q < 0 then .inf else .ninf
  | .fin _, .inf => .fin 0
  | .fin _, .ninf => .fin 0
  | .fin a, .fin b =>
      if b = 0 then (if a = 0 then .nan else if 0 < a then .inf else .ninf)
      else .fin (a / b)

/-- IEEE strict less-than: any comparison involving NaN is false. -/
def flt : F → F → Bool
  | .nan, _ => false
  | _, .nan => false
  | .ninf, .ninf => false
  | .ninf, _ => true
  | _, .ninf => false
  | .inf, _ => false
  | .fin _, .inf => true
  | .fin a, .fin b => decide (a < b)

/-- IEEE less-or-equal: any comparison involving NaN is false. -/
def fle : F → F → Bool
  | .nan, _ => false
  | _, .nan => false
  | .ninf, _ => true
  | _, .ninf => false
  | _, .inf => true
  | .inf, _ => false
  | .fin a, .fin b => decide (a ≤ b)

/-- IEEE strict greater-than. -/
def fgt (a b : F) : Bool := flt b a

/-- IEEE inequality test as used by numpy: NaN compares unequal to
everything, including itself. -/
def fne : F → F → Bool
  | .nan, _ => true
  | _, .nan => true
  | a, b => decide (a ≠ b)

/-- Truth of a float (numpy nonzero test): NaN and the infinities count as
nonzero. -/
def fNonzero : F → Bool
  | .nan => true
  | .inf => true
  | .ninf => true
  | .fin q => decide (q ≠ 0)

/-- IEEE absolute value. -/
def fabs : F → F
  | .nan => .nan
  | .inf => .inf
  | .ninf => .inf
  | .fin q => .fin |q|

/-- Maximum in the sense of numpy max: NaN propagates. -/
def fmax : F → F → F
  | .nan, _ => .nan
  | _, .nan => .nan
  | .inf, _ => .inf
  | _, .inf => .inf
  | .ninf, b => b
  | a, .ninf => a
  | .fin a, .fin b => .fin (max a b)

/-- Minimum in the sense of numpy min: NaN propagates. -/
def fmin : F → F → F
  | .nan, _ => .nan
  | _, .nan => .nan
  | .ninf, _ => .ninf
  | _, .ninf => .ninf
  | .inf, b => b
  | a, .inf => a
  | .fin a, .fin b => .fin (min a b)

/-- A 2d float array, indexed (row, column). -/
abbrev Mat : Type := Nat → Nat → F

/-- A single column of floats. -/
abbrev Col : Type := Nat → F

/-- A 2d boolean array. -/
abbrev BMat : Type := Nat → Nat → Bool

theorem fmul_nan_right (x : F) : fmul x F.nan = F.nan := by
  cases x <;> rfl

theorem flt_nan_right (x : F) : flt x F.nan = false := by
  cases x <;> rfl

theorem flt_asymm {x y : F} (h : flt x y = true) : flt y x = false := by
  cases x <;> cases y <;> simp_all [flt]
  exact le_of_lt h

theorem flt_irrefl (x : F) : flt x x = false := by
  cases x <;> simp [flt]

/-- Insert a value into a strictly sorted list, keeping it sorted and
duplicate-free. -/
def insertSorted (w : Nat) : List Nat → List Nat
  | [] => [w]
  | x :: xs => if w < x then w :: x :: xs else if w = x then x :: xs else x :: insertSorted w xs

/-- Model of np.unique on an integer array: the distinct values in
ascending order. -/
def npUnique (l : List Nat) : List Nat := l.foldr insertSorted []

theorem mem_insertSorted {a w : Nat} :
    ∀ {l : List Nat}, a ∈ insertSorted w l ↔ a = w ∨ a ∈ l := by
  intro l
  induction l with
  | nil => simp [insertSorted]
  | cons x xs ih =>
    by_cases h1 : w < x
    · simp [insertSorted, h1]
    · by_cases h2 : w = x
      · subst h2
        have he : insertSorted w (w :: xs) = w :: xs := by simp [insertSorted, h1]
        rw [he]
        simp only [List.mem_cons]
        tauto
      · simp [insertSorted, h1, h2, ih]
        tauto

theorem pairwise_insertSorted {w : Nat} :
    ∀ {l : List Nat}, l.Pairwise (· < ·) → (insertSorted w l).Pairwise (· < ·) := by
  intro l
  induction l with
  | nil => intro _; simp [insertSorted]
  | cons x xs ih =>
    intro h
    rw [List.pairwise_cons] at h
    by_cases h1 : w < x
    · simp only [insertSorted, if_pos h1]
      rw [List.pairwise_cons]
      refine ⟨?_, by rw [List.pairwise_cons]; exact h⟩
      intro b hb
      rcases List.mem_cons.mp hb with hb | hb
      · omega
      · exact lt_trans h1 (h.1 b hb)
    · by_cases h2 : w = x
      · subst h2
        have he : insertSorted w (w :: xs) = w :: xs := by simp [insertSorted, h1]
        rw [he, List.pairwise_cons]
        exact h
      · simp only [insertSorted, if_neg h1, if_neg h2]
        rw [List.pairwise_cons]
        refine ⟨?_, ih h.2⟩
        intro b hb
        rcases mem_insertSorted.mp hb with hb | hb
        · omega
        · exact h.1 b hb

theorem mem_npUnique {a : Nat} : ∀ {l : List Nat}, a ∈ npUnique l ↔ a ∈ l := by
  intro l
  induction l with
  | nil => simp [npUnique]
  | cons x xs ih =>
    show a ∈ insertSorted x (npUnique xs) ↔ _
    rw [mem_insertSorted, ih]
    simp

theorem npUnique_pairwise : ∀ (l : List Nat), (npUnique l).Pairwise (· < ·) := by
  intro l
  induction l with
  | nil => simp [npUnique]
  | cons x xs ih => exact pairwise_insertSorted ih

theorem npUnique_nodup (l : List Nat) : (npUnique l).Nodup :=
  (npUnique_pairwise l).imp (fun h => Nat.ne_of_lt h)

/-- Lookup in an association list, the model of a numba typed Dict whose
assignments shadow earlier entries. -/
def dictGet {α : Type} : List (Nat × α) → Nat → Option α
  | [], _ => none
  | (k2, v) :: rest, k => if k2 = k then some v else dictGet rest k

/-- The cache-building loop: for each window in the given order, compute the
per-window value and store it under that key. -/
def buildCache {α : Type} (f : Nat → α) (ws : List Nat) : List (Nat × α) :=
  ws.foldl (fun d w => (w, f w) :: d) []

theorem dictGet_foldl {α : Type} (f : Nat → α) :
    ∀ (ws : List Nat) (acc : List (Nat × α)) (w : Nat),
      (w ∈ ws ∨ dictGet acc w = some (f w)) →
      dictGet (ws.foldl (fun d u => (u, f u) :: d) acc) w = some (f w) := by
  intro ws
  induction ws with
  | nil =>
    intro acc w h
    simpa using h.resolve_left (by simp)
  | cons x xs ih =>
    intro acc w h
    show dictGet (xs.foldl _ ((x, f x) :: acc)) w = some (f w)
    apply ih
    by_cases hw : w ∈ xs
    · exact Or.inl hw
    · right
      by_cases hx : x = w
      · subst hx; simp [dictGet]
      · simp only [dictGet, if_neg hx]
        rcases h with h | h
        · rcases List.mem_cons.mp h with h | h
          · exact absurd h.symm hx
          · exact absurd h hw
        · exact h

theorem dictGet_buildCache {α : Type} (f : Nat → α) {ws : List Nat} {w : Nat}
    (h : w ∈ ws) : dictGet (buildCache f ws) w = some (f w) :=
  dictGet_foldl f ws [] w (Or.inl h)

/-- Modelled from the spec: rolling_mean_nb from vectorbt.timeseries (not in
the excerpted source).  Arithmetic mean over a trailing window of length w
ending at each row, computed over the available shorter window near the
start; NaN inputs propagate. -/
def fsumWin (ts : Mat) (c t : Nat) : Nat → F
  | 0 => F.fin 0
  | k + 1 => fadd (fsumWin ts c t k) (ts (t - k) c)

/-- Modelled from the spec: the rolling arithmetic mean (rolling_mean_nb). -/
def rolling_mean_nb (ts : Mat) (w : Nat) : Mat := fun t c =>
  let k := min w (t + 1)
  fdiv (fsumWin ts c t k) (F.fin (k : ℚ))

/-- Modelled from the spec: sum of squared deviations from a given center
over the trailing window, used by the rolling variance estimator. -/
def fsqDevSum (ts : Mat) (c t : Nat) (mu : F) : Nat → F
  | 0 => F.fin 0
  | k + 1 => fadd (fsqDevSum ts c t mu k) (fmul (fsub (ts (t - k) c) mu) (fsub (ts (t - k) c) mu))

/-- Square root on the float model.  The exact IEEE square root of a rational
is generally irrational; it is modelled by the rational square-root
approximation, whose only properties used below are nonnegativity and NaN
behaviour. -/
def fsqrt : F → F
  | .fin q => .fin (Rat.sqrt q)
  | .inf => .inf
  | _ => .nan

/-- Modelled from the spec: rolling_std_nb from vectorbt.timeseries, the
rolling standard deviation matching the rolling mean over the same trailing
window. -/
def rolling_std_nb (ts : Mat) (w : Nat) : Mat := fun t c =>
  let k := min w (t + 1)
  fsqrt (fdiv (fsqDevSum ts c t (rolling_mean_nb ts w t c) k) (F.fin (k : ℚ)))

/-- Modelled from the spec: the exponential smoothing factor derived from a
window length. -/
def ewmAlpha (w : Nat) : ℚ := 2 / ((w : ℚ) + 1)

/-- Modelled from the spec: the unadjusted exponential moving average
recurrence. -/
def ewmRecU (x : Col) (a : ℚ) : Nat → F
  | 0 => x 0
  | t + 1 => fadd (fmul (F.fin (1 - a)) (ewmRecU x a t)) (fmul (F.fin a) (x (t + 1)))

/-- Modelled from the spec: the weighted numerator of the adjusted
exponential moving average. -/
def ewmNum (x : Col) (a : ℚ) (t : Nat) : Nat → F
  | 0 => F.fin 0
  | j + 1 => fadd (ewmNum x a t j) (fmul (F.fin ((1 - a) ^ j)) (x (t - j)))

/-- Modelled from the spec: the weight normalizer of the adjusted exponential
moving average. -/
def ewmDen (a : ℚ) : Nat → ℚ
  | 0 => 0
  | j + 1 => ewmDen a j + (1 - a) ^ j

/-- Modelled from the spec: ewma_nb from vectorbt.timeseries, the
exponential moving average with adjusted or unadjusted recurrence. -/
def ewma_nb (ts : Mat) (w : Nat) (adjust : Bool) : Mat := fun t c =>
  let a := ewmAlpha w
  if adjust then fdiv (ewmNum (fun u => ts u c) a t (t + 1)) (F.fin (ewmDen a (t + 1)))
  else ewmRecU (fun u => ts u c) a t

/-- Modelled from the spec: diff_nb from vectorbt.timeseries, the first
difference with a NaN leading row. -/
def diff_nb (ts : Mat) : Mat := fun t c =>
  if t = 0 then F.nan else fsub (ts t c) (ts (t - 1) c)

/-- Modelled from the spec: set_by_mask_nb from vectorbt.timeseries, which
replaces the masked cells by a constant. -/
def set_by_mask_nb (ts : Mat) (mask : BMat) (v : F) : Mat := fun t c =>
  if mask t c then v else ts t c

/-- Modelled from the spec: prepend_nb from vectorbt.timeseries with one NaN
row, restoring the row count after the first difference dropped a row. -/
def prepend_nb (ts : Mat) : Mat := fun t c =>
  if t = 0 then F.nan else ts (t - 1) c

/-- Modelled from the spec: rolling_max_nb with window None, the expanding
maximum of a column. -/
def rollingMaxExpand (c : Col) : Nat → F
  | 0 => c 0
  | t + 1 => fmax (rollingMaxExpand c t) (c (t + 1))

/-- Modelled from the spec: pct_change_nb from vectorbt.timeseries, the
one-step relative change with a NaN leading row. -/
def pct_change_nb (c : Col) : Col := fun t =>
  if t = 0 then F.nan else fdiv (fsub (c t) (c (t - 1))) (c (t - 1))

/-- Modelled from the spec: ffill_nb from vectorbt.timeseries, which
replaces each NaN cell by the most recent non-NaN value above it. -/
def ffill_nb (c : Col) : Nat → F
  | 0 => c 0
  | t + 1 => if c (t + 1) = F.nan then ffill_nb c t else c (t + 1)

/-- Modelled from the spec: fillna_nb from vectorbt.timeseries, which
replaces NaN cells by a constant. -/
def fillna_nb (c : Col) (v : F) : Col := fun t =>
  if c t = F.nan then v else c t

/-- Minimum over the first T rows of a column, as np.min (NaN propagates). -/
def colMin (c : Col) : Nat → F
  | 0 => F.nan
  | 1 => c 0
  | t + 2 => fmin (colMin c (t + 1)) (c (t + 1))

/-- Maximum over the first T rows of a column, as np.max (NaN propagates). -/
def colMax (c : Col) : Nat → F
  | 0 => F.nan
  | 1 => c 0
  | t + 2 => fmax (colMax c (t + 1)) (c (t + 1))

/-- The body of the cache-building loop of ma_nb: the SMA or EMA for one
window, with the first w rows forced to NaN when min_periods is set. -/
def maCompute (ts : Mat) (ewm adjust min_periods : Bool) (w : Nat) : Mat :=
  let m := if ewm then ewma_nb ts w adjust else rolling_mean_nb ts w
  fun t c => if min_periods ∧ t < w then F.nan else m t c

/-- The list of windows the cache-building loop of ma_nb iterates over:
np.unique of the concatenation of the fast and slow windows. -/
def maCacheLoopWindows (fast_windows slow_windows : List Nat) : List Nat :=
  npUnique (fast_windows ++ slow_windows)

/-- Embedding of ma_nb: for each fast and slow window, the corresponding
SMA/EMA, all windows drawn from one cache; block i of the output holds the
moving average for window i.  C is the column count of ts. -/
def ma_nb (ts : Mat) (C : Nat) (fast_windows slow_windows : List Nat)
    (ewm adjust min_periods : Bool) : Mat × Mat :=
  let cache := buildCache (maCompute ts ewm adjust min_periods)
    (maCacheLoopWindows fast_windows slow_windows)
  ( fun t j => match dictGet cache (fast_windows.getD (j / C) 0) with
      | some m => m t (j % C)
      | none => F.nan,
    fun t j => match dictGet cache (slow_windows.getD (j / C) 0) with
      | some m => m t (j % C)
      | none => F.nan )

/-- Embedding of MovingAverage.generate_entries: fast strictly above slow. -/
def maGenerateEntries (ts : Mat) (C : Nat) (fast_windows slow_windows : List Nat)
    (ewm adjust min_periods : Bool) : BMat := fun t j =>
  fgt ((ma_nb ts C fast_windows slow_windows ewm adjust min_periods).1 t j)
      ((ma_nb ts C fast_windows slow_windows ewm adjust min_periods).2 t j)

/-- Embedding of MovingAverage.generate_exits: fast strictly below slow. -/
def maGenerateExits (ts : Mat) (C : Nat) (fast_windows slow_windows : List Nat)
    (ewm adjust min_periods : Bool) : BMat := fun t j =>
  flt ((ma_nb ts C fast_windows slow_windows ewm adjust min_periods).1 t j)
      ((ma_nb ts C fast_windows slow_windows ewm adjust min_periods).2 t j)

/-- The body of the cache-building loop of bb_nb: the rolling mean and the
rolling standard deviation for one window, with the first w rows forced to
NaN when min_periods is set. -/
def bbCompute (ts : Mat) (min_periods : Bool) (n : Nat) : Mat × Mat :=
  let ma := rolling_mean_nb ts n
  let mstd := rolling_std_nb ts n
  ( fun t c => if min_periods ∧ t < n then F.nan else ma t c,
    fun t c => if min_periods ∧ t < n then F.nan else mstd t c )

/-- The list of windows the cache-building loop of bb_nb iterates over: the
caller-supplied window array itself, without deduplication. -/
def bbCacheLoopWindows (ns : List Nat) : List Nat := ns

/-- Embedding of bb_nb: the upper, middle and lower Bollinger bands, block i
computed from window ns i and multiplier ks i. -/
def bb_nb (ts : Mat) (C : Nat) (ns : List Nat) (ks : List Int)
    (min_periods : Bool) : Mat × Mat × Mat :=
  let cache := buildCache (bbCompute ts min_periods) (bbCacheLoopWindows ns)
  ( fun t j => match dictGet cache (ns.getD (j / C) 0) with
      | some p => fadd (p.1 t (j % C))
          (fmul (F.fin ((ks.getD (j / C) 0 : ℤ) : ℚ)) (p.2 t (j % C)))
      | none => F.nan,
    fun t j => match dictGet cache (ns.getD (j / C) 0) with
      | some p => p.1 t (j % C)
      | none => F.nan,
    fun t j => match dictGet cache (ns.getD (j / C) 0) with
      | some p => fsub (p.1 t (j % C))
          (fmul (F.fin ((ks.getD (j / C) 0 : ℤ) : ℚ)) (p.2 t (j % C)))
      | none => F.nan )

/-- The up-move series of rsi_nb: the first difference of ts with the leading
NaN row dropped, negative deltas replaced by zero. -/
def rsiUp (ts : Mat) : Mat :=
  let delta : Mat := fun t c => diff_nb ts (t + 1) c
  set_by_mask_nb delta (fun t c => flt (delta t c) (F.fin 0)) (F.fin 0)

/-- The down-move series of rsi_nb: positive deltas replaced by zero, then
the absolute value. -/
def rsiDown (ts : Mat) : Mat :=
  let delta : Mat := fun t c => diff_nb ts (t + 1) c
  fun t c => fabs (set_by_mask_nb delta (fun u d => fgt (delta u d) (F.fin 0)) (F.fin 0) t c)

/-- The body of the cache-building loop of rsi_nb: the smoothed up and down
averages for one window, re-aligned by a prepended NaN row, with the first w
rows forced to NaN when min_periods is set. -/
def rsiCompute (ts : Mat) (ewm adjust min_periods : Bool) (w : Nat) : Mat × Mat :=
  let up := rsiUp ts
  let down := rsiDown ts
  let roll_up := if ewm then ewma_nb up w adjust else rolling_mean_nb up w
  let roll_down := if ewm then ewma_nb down w adjust else rolling_mean_nb down w
  let ru := prepend_nb roll_up
  let rd := prepend_nb roll_down
  ( fun t c => if min_periods ∧ t < w then F.nan else ru t c,
    fun t c => if min_periods ∧ t < w then F.nan else rd t c )

/-- The list of windows the cache-building loop of rsi_nb iterates over:
np.unique of the window array. -/
def rsiCacheLoopWindows (windows : List Nat) : List Nat := npUnique windows

/-- The RSI formula applied to the smoothed up and down averages of a cell. -/
def rsiFormula (u d : F) : F :=
  fsub (F.fin 100) (fdiv (F.fin 100) (fadd (F.fin 1) (fdiv u d)))

/-- Embedding of rsi_nb: block i holds the RSI at window windows i. -/
def rsi_nb (ts : Mat) (C : Nat) (windows : List Nat)
    (ewm adjust min_periods : Bool) : Mat :=
  let cache := buildCache (rsiCompute ts ewm adjust min_periods)
    (rsiCacheLoopWindows windows)
  fun t j => match dictGet cache (windows.getD (j / C) 0) with
    | some p => rsiFormula (p.1 t (j % C)) (p.2 t (j % C))
    | none => F.nan

/-- Embedding of stoploss_exit_mask_nb: the boolean column marking every row
of the chosen column whose price is strictly below the stop in force, the
stop being frozen at the entry row. -/
def stoploss_exit_mask_nb (entries : BMat) (col_idx entry_idx : Nat)
    (ts stop : Mat) (is_relative : Bool) : Nat → Bool :=
  let tsc : Col := fun t => ts t col_idx
  let stop0 := stop entry_idx col_idx
  let stop1 := if is_relative then fmul (fsub (F.fin 1) stop0) (tsc entry_idx) else stop0
  fun t => flt (tsc t) stop1

/-- Embedding of tstop_exit_mask_nb: the trailing-stop breach mask for one
column and one entry row.  The peak column is NaN before the entry row and
the expanding maximum of the price from the entry row onward; when the stop
column is not constant, the stop in force is ratcheted at the rows where the
peak changed.  T is the row count. -/
def tstop_exit_mask_nb (entries : BMat) (col_idx entry_idx : Nat)
    (ts stop : Mat) (is_relative : Bool) (T : Nat) : Nat → Bool :=
  let tsc : Col := fun t => ts t col_idx
  let stopc : Col := fun t => stop t col_idx
  let peak : Col := fun t =>
    if t < entry_idx then F.nan
    else rollingMaxExpand (fun s => tsc (entry_idx + s)) (t - entry_idx)
  let stop2 : Col :=
    if fne (colMin stopc T) (colMax stopc T) then
      fillna_nb (ffill_nb (fun t =>
        if fNonzero (pct_change_nb peak t) then stopc t else F.ninf)) F.ninf
    else stopc
  let stop3 : Col := fun t =>
    if is_relative then fmul (fsub (F.fin 1) (stop2 t)) (peak t) else stop2 t
  fun t => flt (tsc t) (stop3 t)

/-- First index t with s ≤ t < s + fuel satisfying p. -/
def findFirst (p : Nat → Bool) : Nat → Nat → Option Nat
  | _, 0 => none
  | s, fuel + 1 => if p s then some s else findFirst p (s + 1) fuel

/-- Modelled from the spec: the scan of the shared exit generator
generate_exits_nb from vectorbt.signals (not in the excerpted source) on one
column.  Starting flat, it arms at the first entry row t, marks the first
later row where the exit mask for entry t is true (or, when only_first is
false, every masked row before the next re-arming), and resumes scanning for
an entry strictly after the marked row.  Returns the list of exit rows. -/
def scanExits (entriesC : Nat → Bool) (maskOf : Nat → Nat → Bool)
    (only_first : Bool) (T : Nat) : Nat → Nat → List Nat
  | _, 0 => []
  | s, fuel + 1 =>
    match findFirst entriesC s (T - s) with
    | none => []
    | some t =>
      match findFirst (fun u => maskOf t u) (t + 1) (T - (t + 1)) with
      | none => []
      | some t1 =>
        if only_first then t1 :: scanExits entriesC maskOf only_first T (t1 + 1) fuel
        else
          let rearm := (findFirst entriesC (t1 + 1) (T - (t1 + 1))).getD T
          ((List.range T).filter (fun u =>
            decide (t < u) && decide (u < rearm) && maskOf t u))
            ++ scanExits entriesC maskOf only_first T (t1 + 1) fuel

/-- Modelled from the spec: generate_exits_nb from vectorbt.signals, run
per column with the given exit-mask callback. -/
def generate_exits_nb (T : Nat) (entries : BMat)
    (maskOf : Nat → Nat → Nat → Bool) (only_first : Bool) : BMat :=
  fun t c => (scanExits (fun u => entries u c) (maskOf c) only_first T 0 T).contains t

/-- Embedding of stoploss_exits_nb: one exit block per stop matrix in the
cube, blocks concatenated horizontally. -/
def stoploss_exits_nb (T C : Nat) (ts : Mat) (entries : BMat)
    (stops : Nat → Mat) (is_relative only_first : Bool) : BMat :=
  fun t j =>
    generate_exits_nb T entries
      (fun c e => stoploss_exit_mask_nb entries c e ts (stops (j / C)) is_relative)
      only_first t (j % C)

/-- Embedding of generate_stoploss_exits for inputs already in canonical
shape (the broadcasting decorators are the out-of-scope validation layer). -/
def generate_stoploss_exits (T C : Nat) (ts : Mat) (entries : BMat)
    (stops : Nat → Mat) (is_relative only_first : Bool) : BMat :=
  stoploss_exits_nb T C ts entries stops is_relative only_first

/-- Embedding of tstop_exits_nb: one trailing-stop exit block per stop
matrix in the cube. -/
def tstop_exits_nb (T C : Nat) (ts : Mat) (entries : BMat)
    (stops : Nat → Mat) (is_relative only_first : Bool) : BMat :=
  fun t j =>
    generate_exits_nb T entries
      (fun c e => tstop_exit_mask_nb entries c e ts (stops (j / C)) is_relative T)
      only_first t (j % C)

/-- Embedding of generate_tstop_exits for inputs already in canonical
shape. -/
def generate_tstop_exits (T C : Nat) (ts : Mat) (entries : BMat)
    (stops : Nat → Mat) (is_relative only_first : Bool) : BMat :=
  tstop_exits_nb T C ts entries stops is_relative only_first

/-- Build a float matrix from a list of rows; missing cells are NaN. -/
def matOfList (l : List (List ℚ)) : Mat := fun t c =>
  match (l.get? t).bind (fun row => row.get? c) with
  | some q => F.fin q
  | none => F.nan

/-- Build a boolean matrix from a list of rows; missing cells are false. -/
def bmatOfList (l : List (List Bool)) : BMat := fun t c =>
  ((l.get? t).bind (fun row => row.get? c)).getD false

/-- Restatement of the claimed effective stop of the fixed stop-loss rule:
the stop value at the entry row, or one minus it times the entry price when
relative. -/
def effectiveStopSpec (ts stop : Mat) (col_idx entry_idx : Nat) (is_relative : Bool) : F :=
  if is_relative then fmul (fsub (F.fin 1) (stop entry_idx col_idx)) (ts entry_idx col_idx)
  else stop entry_idx col_idx

/-- C1: for every price matrix, column, entry index and stop matrix, the
fixed stop-loss exit mask marks exactly the rows whose price is strictly
below the effective stop, with the effective stop anchored at the entry row
(stop at the entry cell when absolute, one minus it times the entry price
when relative), independent of the scan row. -/
theorem c1_stoploss_mask_frozen_threshold (entries : BMat) (ts stop : Mat)
    (col_idx entry_idx : Nat) (is_relative : Bool) (t2 : Nat) :
    stoploss_exit_mask_nb entries col_idx entry_idx ts stop is_relative t2 =
      flt (ts t2 col_idx) (effectiveStopSpec ts stop col_idx entry_idx is_relative) := by
  cases is_relative <;> rfl

/-- Price column of the fixed stop-loss concrete scenario. -/
def c2ts : Mat := matOfList [[10], [9], [11], [8], [12]]

/-- Entry column of both concrete scenarios: a single entry at row 0. -/
def scenarioEntries : BMat := bmatOfList [[true], [false], [false], [false], [false]]

/-- Stop cube of the fixed stop-loss concrete scenario: a single relative
stop of 0.1. -/
def c2stops : Nat → Mat := fun _ => fun _ _ => F.fin (1 / 10)

/-- C2: on price column 10, 9, 11, 8, 12 with one entry at row 0, a single
relative stop of 0.1 and only_first set, generate_stoploss_exits returns
exactly the column false, false, false, true, false: the entry price 10
freezes the threshold at 9 and the first breach is row 3 where 8 is below
9. -/
theorem c2_stoploss_concrete_scenario :
    (List.range 5).map
      (fun t => generate_stoploss_exits 5 1 c2ts scenarioEntries c2stops true true t 0) =
      [false, false, false, true, false] := by
  norm_num [generate_stoploss_exits, stoploss_exits_nb, generate_exits_nb, scanExits,
    findFirst, stoploss_exit_mask_nb, c2ts, scenarioEntries, c2stops, matOfList, bmatOfList,
    List.range_succ, fadd, fmul, flt, fdiv, fsub, fneg]

/-- Price column of the trailing-stop concrete scenario. -/
def c3ts : Mat := matOfList [[10], [12], [11], [15], [9]]

/-- Stop cube of the trailing-stop concrete scenario: a single relative
trailing stop of 0.2. -/
def c3stops : Nat → Mat := fun _ => fun _ _ => F.fin (1 / 5)

/-- C3: on price column 10, 12, 11, 15, 9 with one entry at row 0 and a
single relative trailing stop of 0.2, generate_tstop_exits returns exactly
the column false, false, false, false, true: the expanding peak is 10, 12,
12, 15, 15, the thresholds 0.8 times the peak are 8, 9.6, 9.6, 12, 12, and
the first breach is row 4 where 9 is below 12. -/
theorem c3_tstop_concrete_scenario :
    (List.range 5).map
      (fun t => generate_tstop_exits 5 1 c3ts scenarioEntries c3stops true true t 0) =
      [false, false, false, false, true] := by
  norm_num [generate_tstop_exits, tstop_exits_nb, generate_exits_nb, scanExits,
    findFirst, tstop_exit_mask_nb, c3ts, scenarioEntries, c3stops, matOfList, bmatOfList,
    List.range_succ, colMin, colMax, fne, fmin, fmax, rollingMaxExpand,
    fadd, fmul, flt, fdiv, fsub, fneg]

theorem block_div {i c C : Nat} (hc : c < C) : (i * C + c) / C = i := by
  have hC : 0 < C := lt_of_le_of_lt (Nat.zero_le c) hc
  rw [Nat.add_comm, Nat.add_mul_div_right c i hC, Nat.div_eq_of_lt hc, Nat.zero_add]

theorem block_mod {i c C : Nat} (hc : c < C) : (i * C + c) % C = c := by
  rw [Nat.add_comm, Nat.add_mul_mod_self_right, Nat.mod_eq_of_lt hc]

theorem ma_nb_fst_cell (ts : Mat) (C : Nat) (fast slow : List Nat)
    (ewm adjust min_periods : Bool) (i t c : Nat)
    (hi : i < fast.length) (hc : c < C) :
    (ma_nb ts C fast slow ewm adjust min_periods).1 t (i * C + c) =
      maCompute ts ewm adjust min_periods fast[i] t c := by
  have hmem : fast[i] ∈ maCacheLoopWindows fast slow :=
    mem_npUnique.mpr (List.mem_append_left slow (List.getElem_mem hi))
  simp only [ma_nb, block_div hc, block_mod hc, List.getD_eq_getElem fast 0 hi,
    dictGet_buildCache _ hmem]

theorem ma_nb_snd_cell (ts : Mat) (C : Nat) (fast slow : List Nat)
    (ewm adjust min_periods : Bool) (i t c : Nat)
    (hi : i < slow.length) (hc : c < C) :
    (ma_nb ts C fast slow ewm adjust min_periods).2 t (i * C + c) =
      maCompute ts ewm adjust min_periods slow[i] t c := by
  have hmem : slow[i] ∈ maCacheLoopWindows fast slow :=
    mem_npUnique.mpr (List.mem_append_right fast (List.getElem_mem hi))
  simp only [ma_nb, block_div hc, block_mod hc, List.getD_eq_getElem slow 0 hi,
    dictGet_buildCache _ hmem]

theorem rsi_nb_cell (ts : Mat) (C : Nat) (windows : List Nat)
    (ewm adjust min_periods : Bool) (i t c : Nat)
    (hi : i < windows.length) (hc : c < C) :
    rsi_nb ts C windows ewm adjust min_periods t (i * C + c) =
      rsiFormula ((rsiCompute ts ewm adjust min_periods windows[i]).1 t c)
        ((rsiCompute ts ewm adjust min_periods windows[i]).2 t c) := by
  have hmem : windows[i] ∈ rsiCacheLoopWindows windows :=
    mem_npUnique.mpr (List.getElem_mem hi)
  simp only [rsi_nb, block_div hc, block_mod hc, List.getD_eq_getElem windows 0 hi,
    dictGet_buildCache _ hmem]

theorem bb_nb_upper_cell (ts : Mat) (C : Nat) (ns : List Nat) (ks : List Int)
    (min_periods : Bool) (i t c : Nat)
    (hi : i < ns.length) (hik : i < ks.length) (hc : c < C) :
    (bb_nb ts C ns ks min_periods).1 t (i * C + c) =
      fadd ((bbCompute ts min_periods ns[i]).1 t c)
        (fmul (F.fin ((ks[i] : ℤ) : ℚ)) ((bbCompute ts min_periods ns[i]).2 t c)) := by
  have hmem : ns[i] ∈ bbCacheLoopWindows ns := List.getElem_mem hi
  simp only [bb_nb, block_div hc, block_mod hc, List.getD_eq_getElem ns 0 hi,
    List.getD_eq_getElem ks 0 hik, dictGet_buildCache _ hmem]

theorem bb_nb_middle_cell (ts : Mat) (C : Nat) (ns : List Nat) (ks : List Int)
    (min_periods : Bool) (i t c : Nat)
    (hi : i < ns.length) (hc : c < C) :
    (bb_nb ts C ns ks min_periods).2.1 t (i * C + c) =
      (bbCompute ts min_periods ns[i]).1 t c := by
  have hmem : ns[i] ∈ bbCacheLoopWindows ns := List.getElem_mem hi
  simp only [bb_nb, block_div hc, block_mod hc, List.getD_eq_getElem ns 0 hi,
    dictGet_buildCache _ hmem]

theorem bb_nb_lower_cell (ts : Mat) (C : Nat) (ns : List Nat) (ks : List Int)
    (min_periods : Bool) (i t c : Nat)
    (hi : i < ns.length) (hik : i < ks.length) (hc : c < C) :
    (bb_nb ts C ns ks min_periods).2.2 t (i * C + c) =
      fsub ((bbCompute ts min_periods ns[i]).1 t c)
        (fmul (F.fin ((ks[i] : ℤ) : ℚ)) ((bbCompute ts min_periods ns[i]).2 t c)) := by
  have hmem : ns[i] ∈ bbCacheLoopWindows ns := List.getElem_mem hi
  simp only [bb_nb, block_div hc, block_mod hc, List.getD_eq_getElem ns 0 hi,
    List.getD_eq_getElem ks 0 hik, dictGet_buildCache _ hmem]

/-- C4: block i of a multi-parameter moving-average or RSI sweep equals the
output of the same computation run with parameter i alone, and two blocks
whose sweep parameters coincide are identical cell by cell. -/
theorem c4_sweep_block_independence (ts : Mat) (C : Nat)
    (fast slow ws : List Nat) (ewm adjust min_periods : Bool) (i j t c : Nat)
    (hif : i < fast.length) (his : i < slow.length) (hiw : i < ws.length)
    (hjf : j < fast.length) (hjs : j < slow.length) (hc : c < C)
    (hfe : fast[i] = fast[j]) (hse : slow[i] = slow[j]) :
    ((ma_nb ts C fast slow ewm adjust min_periods).1 t (i * C + c) =
        (ma_nb ts C [fast[i]] [slow[i]] ewm adjust min_periods).1 t c
      ∧ (ma_nb ts C fast slow ewm adjust min_periods).2 t (i * C + c) =
        (ma_nb ts C [fast[i]] [slow[i]] ewm adjust min_periods).2 t c)
    ∧ rsi_nb ts C ws ewm adjust min_periods t (i * C + c) =
        rsi_nb ts C [ws[i]] ewm adjust min_periods t c
    ∧ ((ma_nb ts C fast slow ewm adjust min_periods).1 t (i * C + c) =
        (ma_nb ts C fast slow ewm adjust min_periods).1 t (j * C + c)
      ∧ (ma_nb ts C fast slow ewm adjust min_periods).2 t (i * C + c) =
        (ma_nb ts C fast slow ewm adjust min_periods).2 t (j * C + c)) := by
  have h0 : (0 : Nat) < 1 := Nat.zero_lt_one
  have e1 := ma_nb_fst_cell ts C [fast[i]] [slow[i]] ewm adjust min_periods 0 t c h0 hc
  have e2 := ma_nb_snd_cell ts C [fast[i]] [slow[i]] ewm adjust min_periods 0 t c h0 hc
  have e3 := rsi_nb_cell ts C [ws[i]] ewm adjust min_periods 0 t c h0 hc
  simp only [Nat.zero_mul, Nat.zero_add, List.getElem_cons_zero] at e1 e2 e3
  refine ⟨⟨?_, ?_⟩, ?_, ?_, ?_⟩
  · rw [ma_nb_fst_cell ts C fast slow ewm adjust min_periods i t c hif hc, e1]
  · rw [ma_nb_snd_cell ts C fast slow ewm adjust min_periods i t c his hc, e2]
  · rw [rsi_nb_cell ts C ws ewm adjust min_periods i t c hiw hc, e3]
  · rw [ma_nb_fst_cell ts C fast slow ewm adjust min_periods i t c hif hc,
      ma_nb_fst_cell ts C fast slow ewm adjust min_periods j t c hjf hc, hfe]
  · rw [ma_nb_snd_cell ts C fast slow ewm adjust min_periods i t c his hc,
      ma_nb_snd_cell ts C fast slow ewm adjust min_periods j t c hjs hc, hse]

/-- Price matrix used to instantiate the sweep block-independence claim. -/
def c4ts : Mat := matOfList [[1], [2], [3]]

/-- Witness for C4: the theorem instantiated on a concrete three-row price
column with a duplicated window pair at sweep positions 0 and 1. -/
theorem c4_sweep_block_independence_witness :
    (((ma_nb c4ts 1 [2, 2] [3, 3] false false true).1 1 (0 * 1 + 0) =
        (ma_nb c4ts 1 [2] [3] false false true).1 1 0
      ∧ (ma_nb c4ts 1 [2, 2] [3, 3] false false true).2 1 (0 * 1 + 0) =
        (ma_nb c4ts 1 [2] [3] false false true).2 1 0)
    ∧ rsi_nb c4ts 1 [2, 2] false false true 1 (0 * 1 + 0) =
        rsi_nb c4ts 1 [2] false false true 1 0
    ∧ ((ma_nb c4ts 1 [2, 2] [3, 3] false false true).1 1 (0 * 1 + 0) =
        (ma_nb c4ts 1 [2, 2] [3, 3] false false true).1 1 (1 * 1 + 0)
      ∧ (ma_nb c4ts 1 [2, 2] [3, 3] false false true).2 1 (0 * 1 + 0) =
        (ma_nb c4ts 1 [2, 2] [3, 3] false false true).2 1 (1 * 1 + 0))) :=
  c4_sweep_block_independence c4ts 1 [2, 2] [3, 3] [2, 2] false false true 0 1 1 0
    (by decide) (by decide) (by decide) (by decide) (by decide) (by decide)
    (by decide) (by decide)

/-- One-cell price matrix on which the min_periods claim fails as stated. -/
def c5ts : Mat := matOfList [[5]]

/-- C5 counterexample: with window 1 and min_periods set, the moving-average
output forces row 0 (row index w - 1) to NaN even though the rolling routine
produced the finite value 5 there; the claim asserts that row w - 1 retains
the rolling value, so it fails on this input. -/
theorem c5_min_periods_counterexample :
    (ma_nb c5ts 1 [1] [1] false false true).1 0 0 = F.nan
    ∧ rolling_mean_nb c5ts 1 0 0 = F.fin 5 := by
  constructor
  · norm_num [ma_nb, maCacheLoopWindows, npUnique, insertSorted, buildCache, dictGet,
      maCompute]
  · norm_num [rolling_mean_nb, fsumWin, fadd, fdiv, c5ts, matOfList]

/-- C5 amended: with min_periods set, the first w rows (indices 0 through
w - 1) of a moving-average or Bollinger middle-band block are forced to NaN,
and rows w and later retain whatever the rolling routine produced. -/
theorem c5_min_periods_forces_w_rows (ts : Mat) (C : Nat)
    (fast slow ns : List Nat) (ks : List Int) (ewm adjust : Bool)
    (i c t1 t2 u1 u2 : Nat)
    (hif : i < fast.length) (hin : i < ns.length) (hc : c < C)
    (h1 : t1 < fast[i]) (h2 : fast[i] ≤ t2)
    (h3 : u1 < ns[i]) (h4 : ns[i] ≤ u2) :
    (ma_nb ts C fast slow ewm adjust true).1 t1 (i * C + c) = F.nan
    ∧ (ma_nb ts C fast slow ewm adjust true).1 t2 (i * C + c) =
        (if ewm then ewma_nb ts fast[i] adjust else rolling_mean_nb ts fast[i]) t2 c
    ∧ (bb_nb ts C ns ks true).2.1 u1 (i * C + c) = F.nan
    ∧ (bb_nb ts C ns ks true).2.1 u2 (i * C + c) = rolling_mean_nb ts ns[i] u2 c := by
  refine ⟨?_, ?_, ?_, ?_⟩
  · rw [ma_nb_fst_cell ts C fast slow ewm adjust true i t1 c hif hc]
    simp [maCompute, h1]
  · rw [ma_nb_fst_cell ts C fast slow ewm adjust true i t2 c hif hc]
    simp [maCompute, Nat.not_lt.mpr h2]
  · rw [bb_nb_middle_cell ts C ns ks true i u1 c hin hc]
    simp [bbCompute, h3]
  · rw [bb_nb_middle_cell ts C ns ks true i u2 c hin hc]
    simp [bbCompute, Nat.not_lt.mpr h4]

/-- Witness for the amended C5 on a concrete three-row price column with
window 2: rows 0 and 1 are NaN, row 2 equals the rolling mean. -/
theorem c5_min_periods_forces_w_rows_witness :
    (ma_nb c4ts 1 [2] [2] false false true).1 1 (0 * 1 + 0) = F.nan
    ∧ (ma_nb c4ts 1 [2] [2] false false true).1 2 (0 * 1 + 0) =
        (if false then ewma_nb c4ts 2 false else rolling_mean_nb c4ts 2) 2 0
    ∧ (bb_nb c4ts 1 [2] [0] true).2.1 0 (0 * 1 + 0) = F.nan
    ∧ (bb_nb c4ts 1 [2] [0] true).2.1 2 (0 * 1 + 0) = rolling_mean_nb c4ts 2 2 0 :=
  c5_min_periods_forces_w_rows c4ts 1 [2] [2] [2] [0] false false 0 0 1 2 0 2
    (by decide) (by decide) (by decide) (by decide) (by decide) (by decide) (by decide)

/-- C6: at every cell, the moving-average entry signal (fast strictly above
slow) and exit signal (fast strictly below slow) are never both true, and a
cell where the fast and slow moving averages are exactly equal yields false
in both. -/
theorem c6_ma_signals_exclusive (ts : Mat) (C : Nat)
    (fast_windows slow_windows : List Nat) (ewm adjust min_periods : Bool) (t j : Nat) :
    (maGenerateEntries ts C fast_windows slow_windows ewm adjust min_periods t j
      && maGenerateExits ts C fast_windows slow_windows ewm adjust min_periods t j) = false
    ∧ ((ma_nb ts C fast_windows slow_windows ewm adjust min_periods).1 t j =
        (ma_nb ts C fast_windows slow_windows ewm adjust min_periods).2 t j →
      maGenerateEntries ts C fast_windows slow_windows ewm adjust min_periods t j = false
      ∧ maGenerateExits ts C fast_windows slow_windows ewm adjust min_periods t j = false) := by
  constructor
  · unfold maGenerateEntries maGenerateExits fgt
    cases h : flt ((ma_nb ts C fast_windows slow_windows ewm adjust min_periods).2 t j)
      ((ma_nb ts C fast_windows slow_windows ewm adjust min_periods).1 t j)
    · simp
    · simp [flt_asymm h]
  · intro he
    unfold maGenerateEntries maGenerateExits fgt
    rw [he]
    simp [flt_irrefl]

/-- Witness for C6 on a concrete constant price column where the fast and
slow moving averages coincide. -/
theorem c6_ma_signals_exclusive_witness :
    (maGenerateEntries c4ts 1 [2] [2] false false true 1 0
      && maGenerateExits c4ts 1 [2] [2] false false true 1 0) = false
    ∧ (maGenerateEntries c4ts 1 [2] [2] false false true 1 0 = false
      ∧ maGenerateExits c4ts 1 [2] [2] false false true 1 0 = false) :=
  ⟨(c6_ma_signals_exclusive c4ts 1 [2] [2] false false true 1 0).1,
   (c6_ma_signals_exclusive c4ts 1 [2] [2] false false true 1 0).2 rfl⟩

theorem fsqrt_fin_nonneg {x : F} {s : ℚ} (h : fsqrt x = F.fin s) : 0 ≤ s := by
  cases x <;> simp [fsqrt] at h
  exact h ▸ Rat.sqrt_nonneg _

theorem rolling_std_nb_fin_nonneg {ts : Mat} {w t c : Nat} {s : ℚ}
    (h : rolling_std_nb ts w t c = F.fin s) : 0 ≤ s := by
  unfold rolling_std_nb at h
  exact fsqrt_fin_nonneg h

theorem bbCompute_std_fin_nonneg {ts : Mat} {min_periods : Bool} {n t c : Nat} {s : ℚ}
    (h : (bbCompute ts min_periods n).2 t c = F.fin s) : 0 ≤ s := by
  unfold bbCompute at h
  by_cases hb : min_periods = true ∧ t < n
  · simp [hb] at h
  · simp only [if_neg hb] at h
    exact rolling_std_nb_fin_nonneg h

/-- C7: at every cell of a Bollinger-bands block where the cached rolling
mean and rolling standard deviation are finite and the deviation multiplier
is nonnegative, the bands satisfy lower at most middle at most upper. -/
theorem c7_bb_bands_ordered (ts : Mat) (C : Nat) (ns : List Nat) (ks : List Int)
    (min_periods : Bool) (i t c : Nat) (mq sq : ℚ)
    (hi : i < ns.length) (hik : i < ks.length) (hc : c < C)
    (hk : 0 ≤ ks[i])
    (hm : (bbCompute ts min_periods ns[i]).1 t c = F.fin mq)
    (hs : (bbCompute ts min_periods ns[i]).2 t c = F.fin sq) :
    fle ((bb_nb ts C ns ks min_periods).2.2 t (i * C + c))
      ((bb_nb ts C ns ks min_periods).2.1 t (i * C + c)) = true
    ∧ fle ((bb_nb ts C ns ks min_periods).2.1 t (i * C + c))
      ((bb_nb ts C ns ks min_periods).1 t (i * C + c)) = true := by
  have hsq : 0 ≤ sq := bbCompute_std_fin_nonneg hs
  have hkq : (0 : ℚ) ≤ ((ks[i] : ℤ) : ℚ) := by exact_mod_cast hk
  have hprod : (0 : ℚ) ≤ ((ks[i] : ℤ) : ℚ) * sq := mul_nonneg hkq hsq
  rw [bb_nb_lower_cell ts C ns ks min_periods i t c hi hik hc,
    bb_nb_middle_cell ts C ns ks min_periods i t c hi hc,
    bb_nb_upper_cell ts C ns ks min_periods i t c hi hik hc, hm, hs]
  constructor
  · simp only [fsub, fmul, fneg, fadd, fle, decide_eq_true_eq]
    linarith
  · simp only [fmul, fadd, fle, decide_eq_true_eq]
    linarith

/-- Witness for C7 on a concrete one-cell price matrix with window 1 and
multiplier 1, where the rolling mean is 1 and the rolling standard deviation
is 0. -/
theorem c7_bb_bands_ordered_witness :
    fle ((bb_nb c4ts 1 [1] [1] false).2.2 0 (0 * 1 + 0))
      ((bb_nb c4ts 1 [1] [1] false).2.1 0 (0 * 1 + 0)) = true
    ∧ fle ((bb_nb c4ts 1 [1] [1] false).2.1 0 (0 * 1 + 0))
      ((bb_nb c4ts 1 [1] [1] false).1 0 (0 * 1 + 0)) = true := by
  have hz : Rat.sqrt 0 = 0 := by
    have h0 := Rat.sqrt_eq 0
    rw [mul_zero] at h0
    rw [h0, abs_zero]
  refine c7_bb_bands_ordered c4ts 1 [1] [1] false 0 0 0 1 0
    (by decide) (by decide) (by decide) (by decide) ?_ ?_
  · norm_num [bbCompute, rolling_mean_nb, fsumWin, fadd, fdiv, c4ts, matOfList]
  · norm_num [bbCompute, rolling_std_nb, rolling_mean_nb, fsumWin, fsqDevSum,
      fsqrt, fadd, fsub, fneg, fmul, fdiv, c4ts, matOfList, hz]

/-- Invariant of the smoothed up-move and down-move series: a cell that is
finite is nonnegative. -/
def NNF (x : F) : Prop := ∀ q : ℚ, x = F.fin q → 0 ≤ q

theorem NNF_fadd {a b : F} (ha : NNF a) (hb : NNF b) : NNF (fadd a b) := by
  cases a <;> cases b <;> intro q h <;> simp [fadd] at h
  rw [← h]
  exact add_nonneg (ha _ rfl) (hb _ rfl)

theorem NNF_fmul_fin {c : ℚ} {x : F} (hc : 0 ≤ c) (hx : NNF x) : NNF (fmul (F.fin c) x) := by
  intro q h
  cases x with
  | nan => simp [fmul] at h
  | inf => simp only [fmul] at h; split_ifs at h
  | ninf => simp only [fmul] at h; split_ifs at h
  | fin y =>
    simp [fmul] at h
    rw [← h]
    exact mul_nonneg hc (hx y rfl)

theorem NNF_fdiv_fin {k : ℚ} {x : F} (hk : 0 ≤ k) (hx : NNF x) : NNF (fdiv x (F.fin k)) := by
  intro q h
  cases x with
  | nan => simp [fdiv] at h
  | inf => simp only [fdiv] at h; split_ifs at h
  | ninf => simp only [fdiv] at h; split_ifs at h
  | fin a =>
    simp only [fdiv] at h
    split_ifs at h with h1
    simp only [F.fin.injEq] at h
    rw [← h]
    exact div_nonneg (hx a rfl) hk

theorem NNF_fabs (x : F) : NNF (fabs x) := by
  intro q h
  cases x <;> simp [fabs] at h
  rw [← h]
  exact abs_nonneg _

theorem NNF_fsumWin {ts : Mat} {c t : Nat} (hts : ∀ u v, NNF (ts u v)) :
    ∀ k, NNF (fsumWin ts c t k) := by
  intro k
  induction k with
  | zero =>
    intro q h
    simp [fsumWin] at h
    subst h
    norm_num
  | succ n ih => exact NNF_fadd ih (hts _ _)

theorem NNF_rolling_mean {ts : Mat} (hts : ∀ u v, NNF (ts u v)) (w t c : Nat) :
    NNF (rolling_mean_nb ts w t c) := by
  unfold rolling_mean_nb
  exact NNF_fdiv_fin (by positivity) (NNF_fsumWin hts _)

theorem ewmAlpha_nonneg (w : Nat) : 0 ≤ ewmAlpha w := by
  unfold ewmAlpha
  positivity

theorem ewmAlpha_le_one {w : Nat} (hw : 1 ≤ w) : ewmAlpha w ≤ 1 := by
  unfold ewmAlpha
  rw [div_le_one (by positivity)]
  have : (1 : ℚ) ≤ (w : ℚ) := by exact_mod_cast hw
  linarith

theorem NNF_ewmRecU {x : Col} {a : ℚ} (ha0 : 0 ≤ a) (ha1 : a ≤ 1)
    (hx : ∀ u, NNF (x u)) : ∀ t, NNF (ewmRecU x a t) := by
  intro t
  induction t with
  | zero => exact hx 0
  | succ n ih =>
    exact NNF_fadd (NNF_fmul_fin (by linarith) ih) (NNF_fmul_fin ha0 (hx _))

theorem NNF_ewmNum {x : Col} {a : ℚ} (ha1 : a ≤ 1) (hx : ∀ u, NNF (x u)) (t : Nat) :
    ∀ j, NNF (ewmNum x a t j) := by
  intro j
  induction j with
  | zero => intro q h; simp [ewmNum] at h; rw [← h]
  | succ n ih =>
    exact NNF_fadd ih (NNF_fmul_fin (pow_nonneg (by linarith) n) (hx _))

theorem ewmDen_nonneg {a : ℚ} (ha1 : a ≤ 1) : ∀ j, 0 ≤ ewmDen a j := by
  intro j
  induction j with
  | zero => simp [ewmDen]
  | succ n ih =>
    have : (0 : ℚ) ≤ (1 - a) ^ n := pow_nonneg (by linarith) n
    simp only [ewmDen]
    linarith

theorem NNF_ewma_nb {ts : Mat} {w : Nat} (hw : 1 ≤ w) (adjust : Bool)
    (hts : ∀ u v, NNF (ts u v)) (t c : Nat) : NNF (ewma_nb ts w adjust t c) := by
  have ha0 := ewmAlpha_nonneg w
  have ha1 := ewmAlpha_le_one hw
  unfold ewma_nb
  cases adjust with
  | true =>
    simp only [if_pos rfl]
    exact NNF_fdiv_fin (ewmDen_nonneg ha1 _) (NNF_ewmNum ha1 (fun u => hts u c) t _)
  | false =>
    rw [if_neg Bool.false_ne_true]
    exact NNF_ewmRecU ha0 ha1 (fun u => hts u c) t

theorem NNF_rsiUp (ts : Mat) (t c : Nat) : NNF (rsiUp ts t c) := by
  intro q h
  simp only [rsiUp, set_by_mask_nb] at h
  by_cases hm : flt (diff_nb ts (t + 1) c) (F.fin 0) = true
  · rw [if_pos hm] at h
    simp at h
    subst h
    norm_num
  · rw [if_neg hm] at h
    rw [h] at hm
    simp [flt] at hm
    exact hm

theorem NNF_rsiDown (ts : Mat) (t c : Nat) : NNF (rsiDown ts t c) := by
  simp only [rsiDown]
  exact NNF_fabs _

theorem NNF_prepend {m : Mat} (hm : ∀ u v, NNF (m u v)) (t c : Nat) :
    NNF (prepend_nb m t c) := by
  intro q h
  simp only [prepend_nb] at h
  by_cases ht : t = 0
  · rw [if_pos ht] at h
    cases h
  · rw [if_neg ht] at h
    exact hm _ _ q h

theorem NNF_rsiCompute (ts : Mat) (ewm adjust min_periods : Bool) {w : Nat}
    (hw : 1 ≤ w) (t c : Nat) :
    NNF ((rsiCompute ts ewm adjust min_periods w).1 t c)
    ∧ NNF ((rsiCompute ts ewm adjust min_periods w).2 t c) := by
  have hup : ∀ u v, NNF (rsiUp ts u v) := NNF_rsiUp ts
  have hdown : ∀ u v, NNF (rsiDown ts u v) := NNF_rsiDown ts
  have hru : ∀ u v, NNF ((if ewm then ewma_nb (rsiUp ts) w adjust
      else rolling_mean_nb (rsiUp ts) w) u v) := by
    intro u v
    cases ewm with
    | true => rw [if_pos rfl]; exact NNF_ewma_nb hw adjust hup u v
    | false => rw [if_neg Bool.false_ne_true]; exact NNF_rolling_mean hup w u v
  have hrd : ∀ u v, NNF ((if ewm then ewma_nb (rsiDown ts) w adjust
      else rolling_mean_nb (rsiDown ts) w) u v) := by
    intro u v
    cases ewm with
    | true => rw [if_pos rfl]; exact NNF_ewma_nb hw adjust hdown u v
    | false => rw [if_neg Bool.false_ne_true]; exact NNF_rolling_mean hdown w u v
  constructor <;>
    · simp only [rsiCompute]
      by_cases hb : min_periods = true ∧ t < w
      · rw [if_pos hb]
        intro q h
        cases h
      · rw [if_neg hb]
        first
          | exact NNF_prepend hru t c
          | exact NNF_prepend hrd t c

theorem rsiFormula_range {u d : F} (hu : NNF u) (hd : NNF d) :
    rsiFormula u d = F.nan
    ∨ ∃ r : ℚ, rsiFormula u d = F.fin r ∧ 0 ≤ r ∧ r ≤ 100 := by
  cases u with
  | nan => cases d <;> exact Or.inl rfl
  | inf =>
    cases d with
    | nan => left; rfl
    | inf => left; rfl
    | ninf => left; rfl
    | fin b =>
      have hb : 0 ≤ b := hd b rfl
      right
      exact ⟨100, by norm_num [rsiFormula, fdiv, fadd, fsub, fneg, hb.not_lt],
        by norm_num, le_refl 100⟩
  | ninf =>
    cases d with
    | nan => left; rfl
    | inf => left; rfl
    | ninf => left; rfl
    | fin b =>
      have hb : 0 ≤ b := hd b rfl
      right
      exact ⟨100, by norm_num [rsiFormula, fdiv, fadd, fsub, fneg, hb.not_lt],
        by norm_num, le_refl 100⟩
  | fin a =>
    have ha : 0 ≤ a := hu a rfl
    cases d with
    | nan => left; rfl
    | inf =>
      right
      exact ⟨0, by norm_num [rsiFormula, fdiv, fadd, fsub, fneg], le_refl 0, by norm_num⟩
    | ninf =>
      right
      exact ⟨0, by norm_num [rsiFormula, fdiv, fadd, fsub, fneg], le_refl 0, by norm_num⟩
    | fin b =>
      have hb : 0 ≤ b := hd b rfl
      by_cases hb0 : b = 0
      · subst hb0
        by_cases ha0 : a = 0
        · subst ha0
          left
          norm_num [rsiFormula, fdiv, fadd, fsub, fneg]
        · have hap : 0 < a := lt_of_le_of_ne ha (Ne.symm ha0)
          right
          exact ⟨100, by norm_num [rsiFormula, fdiv, fadd, fsub, fneg, ha0, hap],
            by norm_num, le_refl 100⟩
      · have hbp : 0 < b := lt_of_le_of_ne hb (Ne.symm hb0)
        right
        have hq0 : 0 ≤ a / b := div_nonneg ha hb
        have h1q : (0 : ℚ) < 1 + a / b := by linarith
        refine ⟨100 - 100 / (1 + a / b), ?_, ?_, ?_⟩
        · norm_num [rsiFormula, fdiv, fadd, fsub, fneg, hb0, h1q.ne.symm]
          ring
        · have hle : 100 / (1 + a / b) ≤ 100 := div_le_self (by norm_num) (by linarith)
          linarith
        · have hge : 0 ≤ 100 / (1 + a / b) := le_of_lt (div_pos (by norm_num) h1q)
          linarith

/-- C8: every in-range cell of the RSI output equals 100 minus 100 divided
by one plus the ratio of the smoothed up-move and down-move averages of that
cell, and that value is NaN, infinite, or a rational between 0 and 100. -/
theorem c8_rsi_formula_and_range (ts : Mat) (C : Nat) (windows : List Nat)
    (ewm adjust min_periods : Bool) (i t c : Nat)
    (hi : i < windows.length) (hc : c < C) (hw : 1 ≤ windows[i]) :
    rsi_nb ts C windows ewm adjust min_periods t (i * C + c) =
      rsiFormula ((rsiCompute ts ewm adjust min_periods windows[i]).1 t c)
        ((rsiCompute ts ewm adjust min_periods windows[i]).2 t c)
    ∧ (rsi_nb ts C windows ewm adjust min_periods t (i * C + c) = F.nan
      ∨ rsi_nb ts C windows ewm adjust min_periods t (i * C + c) = F.inf
      ∨ ∃ r : ℚ, rsi_nb ts C windows ewm adjust min_periods t (i * C + c) = F.fin r
          ∧ 0 ≤ r ∧ r ≤ 100) := by
  have hcell := rsi_nb_cell ts C windows ewm adjust min_periods i t c hi hc
  refine ⟨hcell, ?_⟩
  rw [hcell]
  have hnn := NNF_rsiCompute ts ewm adjust min_periods hw t c
  rcases rsiFormula_range hnn.1 hnn.2 with h | ⟨r, hr⟩
  · exact Or.inl h
  · exact Or.inr (Or.inr ⟨r, hr⟩)

/-- Witness for C8 on a concrete two-row rising price column with window 1:
the down average is zero, the up average positive, and the RSI cell
evaluates to 100. -/
theorem c8_rsi_formula_and_range_witness :
    rsi_nb c2ts 1 [1] false false false 1 (0 * 1 + 0) =
      rsiFormula ((rsiCompute c2ts false false false 1).1 1 0)
        ((rsiCompute c2ts false false false 1).2 1 0)
    ∧ (rsi_nb c2ts 1 [1] false false false 1 (0 * 1 + 0) = F.nan
      ∨ rsi_nb c2ts 1 [1] false false false 1 (0 * 1 + 0) = F.inf
      ∨ ∃ r : ℚ, rsi_nb c2ts 1 [1] false false false 1 (0 * 1 + 0) = F.fin r
          ∧ 0 ≤ r ∧ r ≤ 100) :=
  c8_rsi_formula_and_range c2ts 1 [1] false false false 0 1 0
    (by decide) (by decide) (by decide)

/-- C9 counterexample: the Bollinger-bands cache-building loop ranges over
the caller-supplied window array itself, not its deduplicated set, so the
duplicated window 2 is computed twice; np.unique of the same array would
hold it once. -/
theorem c9_bb_no_dedup_counterexample :
    (bbCacheLoopWindows [2, 2]).count 2 = 2
    ∧ npUnique [2, 2] = [2]
    ∧ bbCacheLoopWindows [2, 2] ≠ npUnique [2, 2] := by
  refine ⟨?_, ?_, ?_⟩ <;> decide

/-- C9 amended: the moving-average pair and the RSI deduplicate their window
arrays before the cache-building loop, so each distinct window is computed
exactly once there; the Bollinger-bands loop instead ranges over the raw
window array, recomputing duplicated windows (each occurrence once). -/
theorem c9_cache_dedup_amended (fast slow ws ns : List Nat) (w : Nat)
    (hma : w ∈ fast ++ slow) (hrsi : w ∈ ws) :
    (maCacheLoopWindows fast slow).count w = 1
    ∧ (rsiCacheLoopWindows ws).count w = 1
    ∧ bbCacheLoopWindows ns = ns := by
  refine ⟨?_, ?_, rfl⟩
  · exact List.count_eq_one_of_mem (npUnique_nodup _) (mem_npUnique.mpr hma)
  · exact List.count_eq_one_of_mem (npUnique_nodup _) (mem_npUnique.mpr hrsi)

/-- Witness for the amended C9 on concrete window arrays with duplicated
entries. -/
theorem c9_cache_dedup_amended_witness :
    (maCacheLoopWindows [2, 2] [3]).count 2 = 1
    ∧ (rsiCacheLoopWindows [2, 2]).count 2 = 1
    ∧ bbCacheLoopWindows [5, 5] = [5, 5] :=
  c9_cache_dedup_amended [2, 2] [3] [2, 2] [5, 5] 2 (by decide) (by decide)

/-- Two-row price column on which the trailing-stop mask fires before the
entry row when the stop is absolute. -/
def c10ts : Mat := matOfList [[5], [10]]

/-- Constant absolute stop level for the C10 counterexample. -/
def c10stop : Mat := fun _ _ => F.fin 10

/-- C10 counterexample: with an absolute (non-relative) stop, the
trailing-stop exit mask can be true strictly before the entry row, because
the NaN peak only enters the comparison in the relative branch: here row 0
is marked although the entry row is 1. -/
theorem c10_tstop_mask_counterexample :
    tstop_exit_mask_nb (fun _ _ => false) 0 1 c10ts c10stop false 2 0 = true
    ∧ (0 : Nat) < 1 := by
  constructor
  · norm_num [tstop_exit_mask_nb, colMin, colMax, fne, fmin, fmax, c10ts, c10stop,
      matOfList, flt]
  · decide

/-- C10 amended: when is_relative is true, the trailing-stop exit mask is
false at every row strictly before the entry row: the running peak is NaN
there, the NaN propagates through the relative threshold product, and a
strict less-than comparison against NaN is false.  (The absolute branch
compares against the raw stop column and can fire before the entry row;
restricting exits to rows after the entry is delegated to the shared exit
generator.) -/
theorem c10_tstop_mask_false_before_entry (entries : BMat) (ts stop : Mat)
    (T col_idx entry_idx t2 : Nat) (h : t2 < entry_idx) :
    tstop_exit_mask_nb entries col_idx entry_idx ts stop true T t2 = false := by
  simp [tstop_exit_mask_nb, h, fmul_nan_right, flt_nan_right]

/-- Witness for the amended C10: on the same concrete input as the
counterexample but with a relative stop, row 0 is not marked. -/
theorem c10_tstop_mask_false_before_entry_witness :
    tstop_exit_mask_nb (fun _ _ => false) 0 1 c10ts c10stop true 2 0 = false :=
  c10_tstop_mask_false_before_entry (fun _ _ => false) c10ts c10stop 2 0 1 0 (by decide)

end Vectorbt
